import Mathlib

/-!
Shallow embedding of `update.py` from the chaos-sticker-collection repository.

The program curates an image-metadata catalog stored in `data.json`:
it scans the `images/` directory, detects files not yet recorded in the
catalog, interactively classifies each new file, detects byte-identical
duplicates, and rewrites the catalog.

Modelling conventions:
* Python strings are Lean `String` (a wrapper around `List Char`);
  indexing and slicing are performed on the `data` field, matching
  Python's codepoint indexing for the inputs considered here.
* The catalog (a JSON object / Python dict) is an association list
  `List (String × Entry)` in insertion order, matching dict iteration
  order; assigning a fresh key appends at the end.
* File contents are a total function `String → String` from filename to
  content bytes; SHA-1 is modelled as the identity on content, which is
  adequate because the digest is used only for equality comparison.
* Operator console input is a list of the lines the operator submits,
  consumed left to right.  A prompt prefill only seeds the editable
  line shown to the operator, so it does not appear in the model: the
  stream element is the line as finally submitted.
* A run that blocks forever waiting for input that never validates is
  `Outcome.noInput`; an uncaught Python `IndexError` is
  `Outcome.indexError`.
-/

namespace StickerUpdate

/-- Result of running a piece of the program: normal value, uncaught
`IndexError`, or exhaustion of the operator input stream. -/
inductive Outcome (α : Type) where
  | ok : α → Outcome α
  | indexError : Outcome α
  | noInput : Outcome α
deriving DecidableEq, Repr

/-- One catalog entry: the value of the JSON object under one base-name
key.  Optional fields are `none` exactly when the key is absent. -/
structure Entry where
  exts : List String
  tags : String
  title : Option String := none
  author : Option String := none
  license : Option String := none
  language : Option String := none
deriving DecidableEq, Repr

/-- The catalog: base name to entry, in dict insertion order. -/
abbrev Db := List (String × Entry)

/-- First binding for a key, like Python `d[k]` / `k in d` on a dict. -/
def alookup {α : Type} : List (String × α) → String → Option α
  | [], _ => none
  | (k, v) :: rest, name => if k = name then some v else alookup rest name

/-- Replace the value bound to `name`, like assigning `db[name]` for an
existing key (entries keep their position). -/
def dbSet (db : Db) (name : String) (v : Entry) : Db :=
  db.map (fun p => if p.1 = name then (name, v) else p)

/-- Boolean test that `pre` is a prefix of `l` (Python `startswith`). -/
def isPre : List Char → List Char → Bool
  | [], _ => true
  | _ :: _, [] => false
  | a :: as, b :: bs => a = b && isPre as bs

/-- Index of the last `'.'` in a character list, Python `str.rfind('.')`
restricted to the found case. -/
def rfindDot : List Char → Option Nat
  | [] => none
  | c :: cs =>
    match rfindDot cs with
    | some j => some (j + 1)
    | none => if c = '.' then some 0 else none

/-- Python `str.strip()`: remove leading and trailing whitespace. -/
def pyStrip (s : String) : String :=
  ⟨((s.data.dropWhile Char.isWhitespace).reverse.dropWhile Char.isWhitespace).reverse⟩

/-- Python `str.lower()` (ASCII case mapping). -/
def pyLower (s : String) : String :=
  ⟨s.data.map Char.toLower⟩

/-- The `split_ext` helper of `add_image` (update.py lines 97-102):
split at the last `'.'`; a file with no dot gets extension `""`. -/
def split_ext (image : String) : String × String :=
  match rfindDot image.data with
  | none => (image, "")
  | some i => (⟨image.data.take i⟩, ⟨image.data.drop (i + 1)⟩)

/-- Python `os.path.splitext` for a bare filename: split at the last
dot, except that a name whose characters before that dot are all dots
(for example `".hidden"`) is not split; the extension keeps its dot. -/
def splitext (p : String) : String × String :=
  match rfindDot p.data with
  | none => (p, "")
  | some d =>
    if (p.data.take d).all (· = '.') then (p, "")
    else (⟨p.data.take d⟩, ⟨p.data.drop d⟩)

/-- Python `"{}.{}".format(name, ext)`. -/
def dotJoin (name ext : String) : String := name ++ "." ++ ext

-- fixed allow-lists (update.py lines 12-13)

/-- Subset of SPDX licenses accepted by the tool. -/
def valid_licenses : List String := ["", "CC0-1.0"]

/-- Languages accepted by the tool. -/
def valid_languages : List String := ["", "dutch", "english", "french", "german"]

-- validators (update.py lines 61-86); printing of guidance is dropped

/-- Validator `is_valid_author`: accepts anything. -/
def is_valid_author (_author : String) : Bool := true

/-- Validator `is_valid_title`: accepts anything. -/
def is_valid_title (_title : String) : Bool := true

/-- Validator `is_valid_tags`: non-empty and unchanged by lowercasing. -/
def is_valid_tags (tags : String) : Bool :=
  if tags.length = 0 then false
  else if pyLower tags ≠ tags then false
  else true

/-- Validator `is_valid_license`: member of the license allow-list. -/
def is_valid_license (license : String) : Bool :=
  license ∈ valid_licenses

/-- Validator `is_valid_language`: member of the language allow-list. -/
def is_valid_language (language : String) : Bool :=
  language ∈ valid_languages

/-- Validator of the yes/no prompts: Python `v in ["", "Y", "n"]`. -/
def isYn (v : String) : Bool := v = "" || v = "Y" || v = "n"

/-- The `get_value` helper of `add_image` (update.py lines 91-95):
re-prompt until the validator accepts the raw line, then return the
accepted line stripped.  Note that validation happens before `strip`.
Returns the accepted value and the unconsumed input stream; `none` when
the stream is exhausted (the real program would keep prompting). -/
def get_value (is_valid : String → Bool) : List String → Option (String × List String)
  | [] => none
  | v :: rest => if is_valid v then some (pyStrip v, rest) else get_value is_valid rest

/-- Loop body of `get_defaults_entry` (update.py lines 55-58): scan the
dict in order; `key.startswith(name)` short-circuits, and only when it
holds is `key[len(name)]` evaluated, which raises `IndexError` when
`len(key) ≤ len(name)` (with the `startswith` guard this happens exactly
when `key = name`). -/
def get_defaults_go (name : String) : Db → Except Unit (Option Entry)
  | [] => .ok none
  | (key, v) :: rest =>
    if isPre name.data key.data then
      match key.data[name.length]? with
      | some c => if c = '.' then .ok (some v) else get_defaults_go name rest
      | none => .error ()
    else get_defaults_go name rest

/-- Function `get_defaults_entry` (update.py lines 53-59): split the image name
with `os.path.splitext` and return the first entry whose key starts
with that base name and continues with a `'.'`; `Except.error` models an
uncaught `IndexError`, `.ok none` the empty dict `{}`. -/
def get_defaults_entry (db : Db) (image : String) : Except Unit (Option Entry) :=
  get_defaults_go (splitext image).1 db

/-- The five classification values collected in one pass of the
`while True` loop of `add_image` (update.py lines 132-136), in order:
tags, title, author, license, language. -/
def collect_fields (inputs : List String) :
    Option ((String × String × String × String × String) × List String) :=
  match get_value is_valid_tags inputs with
  | none => none
  | some (tags, i1) =>
    match get_value is_valid_title i1 with
    | none => none
    | some (title, i2) =>
      match get_value is_valid_author i2 with
      | none => none
      | some (author, i3) =>
        match get_value is_valid_license i3 with
        | none => none
        | some (license, i4) =>
          match get_value is_valid_language i4 with
          | none => none
          | some (language, i5) => some ((tags, title, author, license, language), i5)

/-- The `while True` classification loop of `add_image` (update.py
lines 131-140): collect the five fields, ask `Done? [Y, n]`, break on
`""` or `"Y"`, restart otherwise.  The loop is driven by a fuel
parameter for structural recursion; every iteration consumes at least
one input line (six `get_value` successes), so fuel `inputs.length + 1`
can never run out before the input stream does, and the fuel-exhaustion
case is unreachable when called that way. -/
def classify_loop : Nat → List String →
    Option ((String × String × String × String × String) × List String)
  | 0, _ => none
  | fuel + 1, inputs =>
    match collect_fields inputs with
    | none => none
    | some (fields, i5) =>
      match get_value isYn i5 with
      | none => none
      | some (ans, i6) =>
        if ans = "" ∨ ans = "Y" then some (fields, i6)
        else classify_loop fuel i6

/-- Building the new entry object (update.py lines 142-151): `tags` and
`exts` always present, the other fields only when non-empty. -/
def mkEntry (ext tags title author license language : String) : Entry :=
  { exts := [ext]
    tags := tags
    title := if title.length > 0 then some title else none
    language := if language.length > 0 then some language else none
    author := if author.length > 0 then some author else none
    license := if license.length > 0 then some license else none }

/-- Function `add_image` (update.py lines 88-157) without the display-only
`i`/`n` arguments.  Returns the add count (0 or 1), the updated
catalog, and the unconsumed operator input. -/
def add_image (db : Db) (image : String) (inputs : List String) :
    Outcome (Nat × Db × List String) :=
  let name := (split_ext image).1
  let ext := (split_ext image).2
  if ext.length = 0 then .ok (0, db, inputs)
  else
    match alookup db name with
    | some obj =>
      match get_value isYn inputs with
      | none => .noInput
      | some (answer, rest) =>
        if answer = "" ∨ answer = "Y" then
          .ok (1, dbSet db name { obj with exts := obj.exts ++ [ext] }, rest)
        else .ok (0, db, rest)
    | none =>
      match get_defaults_entry db image with
      | .error _ => .indexError
      | .ok _ =>
        -- the defaults only prefill the editable prompt line, so they do
        -- not influence the values the operator finally submits
        match classify_loop (inputs.length + 1) inputs with
        | none => .noInput
        | some ((tags, title, author, license, language), rest) =>
          .ok (1, db ++ [(name, mkEntry ext tags title author license language)], rest)

/-- Loop of `check_duplicate_images` (update.py lines 30-51).  `hashes`
is the dict keyed by digest; the report accumulates, per detected pair,
the new filename, the previously recorded one, and whether each is in
the catalog (the information printed by the four guidance branches).
Note that the source never assigns `hashes[file_hash] = image`, so the
dict parameter is passed along unchanged, exactly as in the code. -/
def check_dup_go (db_images : List String) (contents : String → String)
    (hashes : List (String × String)) (dup : Bool)
    (rep : List (String × String × Bool × Bool)) :
    List String → Bool × List (String × String × Bool × Bool)
  | [] => (dup, rep)
  | image :: rest =>
    let file_hash := contents image
    match alookup hashes file_hash with
    | some other_image =>
      check_dup_go db_images contents hashes true
        (rep ++ [(image, other_image, db_images.contains image, db_images.contains other_image)]) rest
    | none => check_dup_go db_images contents hashes dup rep rest

/-- Function `check_duplicate_images` (update.py lines 23-51): SHA-1 of a file's
bytes is modelled by `contents` itself (digest equality iff content
equality); returns the `duplicates_found` flag and the report of
detected pairs. -/
def check_duplicate_images (db_images : List String) (contents : String → String)
    (images : List String) : Bool × List (String × String × Bool × Bool) :=
  check_dup_go db_images contents [] false [] images

/-- Function `get_db_set` (update.py lines 170-175): every entry contributes
`"{name}.{ext}"` for each of its extensions. -/
def get_db_set : Db → List String
  | [] => []
  | p :: rest => p.2.exts.map (fun x => dotJoin p.1 x) ++ get_db_set rest

/-- Difference `new_images = images - db_images` (update.py line 184): the on-disk
names not produced by the catalog expansion.  The on-disk set is given
as a list in its (arbitrary) enumeration order, which the difference
preserves. -/
def new_images_list (db : Db) (images : List String) : List String :=
  images.filter (fun g => ¬ g ∈ get_db_set db)

/-- Observable outcome of a full run of `main` (update.py lines
159-206): `wrote` is `some db` when `data.json` was rewritten with the
serialization of `db` and `none` when the run returned without writing;
`added` is the printed count of new entries; `classified` lists, in
order, the images handed to `add_image`; `finalDb` is the in-memory
catalog when the run ends. -/
structure MainResult where
  wrote : Option Db
  added : Nat
  classified : List String
  finalDb : Db
deriving DecidableEq, Repr

/-- The classification loop of `main` (update.py lines 200-201),
threading the catalog, the add count and the operator input through
`add_image` over the new images in iteration order. -/
def run_images (db : Db) (count : Nat) (cls : List String) (inputs : List String) :
    List String → Outcome (Nat × Db × List String)
  | [] => .ok (count, db, cls)
  | image :: rest =>
    match add_image db image inputs with
    | .ok (n, db', inputs') => run_images db' (count + n) (cls ++ [image]) inputs' rest
    | .indexError => .indexError
    | .noInput => .noInput

/-- Function `main` (update.py lines 159-206): compute the catalog expansion and
the new images, run the duplicate check (aborting on a true flag), abort
when there are no new images, ask the start question (only the literal
answer `"n"` declines), classify each new image, then always rewrite
`data.json`. -/
def main_run (db : Db) (images : List String) (contents : String → String)
    (inputs : List String) : Outcome MainResult :=
  let db_images := get_db_set db
  let new_images := new_images_list db images
  if (check_duplicate_images db_images contents images).1 then
    .ok ⟨none, 0, [], db⟩
  else if new_images.length = 0 then
    .ok ⟨none, 0, [], db⟩
  else
    match inputs with
    | [] => .noInput
    | answer :: rest =>
      if answer = "n" then .ok ⟨none, 0, [], db⟩
      else
        match run_images db 0 [] rest new_images with
        | .ok (count, db', cls) => .ok ⟨some db', count, cls, db'⟩
        | .indexError => .indexError
        | .noInput => .noInput

/-! ### Predicates used to state the specification claims -/

/-- Guard of the defaults lookup as a total predicate: the entry key
starts with the image base name and continues with a dot. -/
def key_matches (name key : String) : Bool :=
  isPre name.data key.data && key.data[name.length]? == some '.'

/-- Relation asserted by the claim text about the defaults lookup: the
existing entry's base name is a strict leading part of the new base
name, followed inside it by the extension separator. -/
def claim_defaults_matches (name key : String) : Bool :=
  isPre key.data name.data && decide (key.length < name.length) &&
    name.data[key.length]? == some '.'

/-- Pair-level representation of a filename in the catalog: some entry
has the filename's base name as its key and the filename's extension in
its extension list. -/
def pair_represented (db : Db) (f : String) : Bool :=
  db.any (fun p => decide (p.1 = (split_ext f).1 ∧ (split_ext f).2 ∈ p.2.exts))

/-- Every entry's extension list is duplicate-free. -/
def ExtsOk (db : Db) : Prop := ∀ p ∈ db, p.2.exts.Nodup

/-- No filename of the list is produced by the expansion of the
catalog. -/
def NoHit (db : Db) (fs : List String) : Prop :=
  ∀ f ∈ fs, ∀ p ∈ db, ∀ x ∈ p.2.exts, f ≠ dotJoin p.1 x

/-! ### Basic lemmas about the embedded helpers -/

/-- String append acts as list append on the underlying characters. -/
theorem data_append (s t : String) : (s ++ t).data = s.data ++ t.data := rfl

/-- Characters of `dotJoin name ext`. -/
theorem dotJoin_data (n x : String) : (dotJoin n x).data = n.data ++ '.' :: x.data := by
  show (n.data ++ ['.']) ++ x.data = n.data ++ '.' :: x.data
  simp

/-- A string whose length is positive is not the empty string. -/
theorem ne_empty_of_length_ne_zero {s : String} (h : ¬ s.length = 0) : s ≠ "" := by
  intro he; subst he; exact h rfl

/-- A successful lookup returns a binding of the list. -/
theorem alookup_mem {α : Type} : ∀ (db : List (String × α)) (name : String) (v : α),
    alookup db name = some v → (name, v) ∈ db := by
  intro db
  induction db with
  | nil => intro name v h; simp [alookup] at h
  | cons p rest ih =>
    intro name v h
    obtain ⟨k, w⟩ := p
    by_cases hk : k = name
    · subst hk
      simp [alookup] at h
      simp [h]
    · simp [alookup, hk] at h
      exact List.mem_cons_of_mem _ (ih name v h)

/-- Members of the updated association list are either the new binding or
an untouched old binding with a different key. -/
theorem mem_dbSet (db : Db) (name : String) (v : Entry) (q : String × Entry)
    (h : q ∈ dbSet db name v) : q = (name, v) ∨ (q ∈ db ∧ q.1 ≠ name) := by
  unfold dbSet at h
  obtain ⟨p, hp, he⟩ := List.mem_map.mp h
  by_cases hpn : p.1 = name
  · left; rw [if_pos hpn] at he; exact he.symm
  · right; rw [if_neg hpn] at he; subst he; exact ⟨hp, hpn⟩

/-- Predicate `isPre` tested positively means taking that many characters
recovers the candidate. -/
theorem isPre_iff : ∀ (a b : List Char), isPre a b = true ↔ b.take a.length = a := by
  intro a
  induction a with
  | nil => intro b; simp [isPre]
  | cons x xs ih =>
    intro b
    cases b with
    | nil => simp [isPre]
    | cons y ys =>
      simp only [isPre, List.length_cons, List.take_succ_cons, List.cons.injEq,
        Bool.and_eq_true, decide_eq_true_eq, ih ys]
      constructor
      · rintro ⟨h1, h2⟩; exact ⟨h1.symm, h2⟩
      · rintro ⟨h1, h2⟩; exact ⟨h1.symm, h2⟩

/-- Search `rfindDot` fails exactly on dot-free strings. -/
theorem rfindDot_eq_none_iff : ∀ l : List Char, rfindDot l = none ↔ '.' ∉ l := by
  intro l
  induction l with
  | nil => simp [rfindDot]
  | cons c cs ih =>
    show (match rfindDot cs with
      | some j => some (j + 1)
      | none => if c = '.' then some 0 else none) = none ↔ '.' ∉ c :: cs
    cases h : rfindDot cs with
    | some j =>
      simp only [List.mem_cons]
      constructor
      · intro h'; cases h'
      · intro h'
        exact absurd (ih.mpr (fun hm => h' (Or.inr hm))) (by simp [h])
    | none =>
      by_cases hc : c = '.'
      · subst hc; simp
      · simp [hc, Ne.symm hc, ih.mp h]

/-- The index found by `rfindDot` carries a dot and splits the list. -/
theorem rfindDot_join : ∀ (l : List Char) (d : Nat), rfindDot l = some d →
    l = l.take d ++ '.' :: l.drop (d + 1) := by
  intro l
  induction l with
  | nil => intro d h; simp [rfindDot] at h
  | cons c cs ih =>
    intro d h
    revert h
    show (match rfindDot cs with
      | some j => some (j + 1)
      | none => if c = '.' then some 0 else none) = some d →
      c :: cs = (c :: cs).take d ++ '.' :: (c :: cs).drop (d + 1)
    cases hr : rfindDot cs with
    | some j =>
      intro h
      have hd : d = j + 1 := by
        have := h; simp at this; omega
      subst hd
      simp only [List.take_succ_cons, List.drop_succ_cons, List.cons_append,
        List.cons.injEq, true_and]
      exact ih j hr
    | none =>
      by_cases hc : c = '.'
      · subst hc
        intro h
        have hd : d = 0 := by simp at h; omega
        subst hd
        simp
      · intro h; simp [hc] at h

/-- Search `rfindDot` on a string whose last dot separates a dot-free suffix finds it. -/
theorem rfindDot_append (a b : List Char) (hb : '.' ∉ b) :
    rfindDot (a ++ '.' :: b) = some a.length := by
  induction a with
  | nil =>
    show (match rfindDot b with
      | some j => some (j + 1)
      | none => if '.' = '.' then some 0 else none) = some 0
    rw [(rfindDot_eq_none_iff b).mpr hb]
    simp
  | cons c cs ih =>
    show (match rfindDot (cs ++ '.' :: b) with
      | some j => some (j + 1)
      | none => if c = '.' then some 0 else none) = some (cs.length + 1)
    rw [ih]

/-- Splitting a filename composed of a base name and a dot-free
extension recovers the two parts. -/
theorem split_ext_append (n x : String) (hx : '.' ∉ x.data) :
    split_ext (dotJoin n x) = (n, x) := by
  unfold split_ext
  rw [dotJoin_data n x, rfindDot_append n.data x.data hx]
  show (⟨(n.data ++ '.' :: x.data).take n.data.length⟩,
    (⟨(n.data ++ '.' :: x.data).drop (n.data.length + 1)⟩ : String)) = (n, x)
  have h1 : (n.data ++ '.' :: x.data).take n.data.length = n.data := List.take_left _ _
  have h2 : (n.data ++ '.' :: x.data).drop (n.data.length + 1) = x.data := by
    have : n.data ++ '.' :: x.data = (n.data ++ ['.']) ++ x.data := by simp
    rw [this]
    have hl : n.data.length + 1 = (n.data ++ ['.']).length := by simp
    rw [hl]
    exact List.drop_left _ _
  rw [h1, h2]

/-- A filename whose `split_ext` extension is non-empty is the join of
its base name and extension. -/
theorem split_ext_join (f : String) (h : (split_ext f).2 ≠ "") :
    f = dotJoin (split_ext f).1 (split_ext f).2 := by
  revert h
  unfold split_ext
  cases hf : rfindDot f.data with
  | none => intro h; exact absurd rfl h
  | some d =>
    intro _
    show f = dotJoin ⟨f.data.take d⟩ ⟨f.data.drop (d + 1)⟩
    have : (dotJoin ⟨f.data.take d⟩ ⟨f.data.drop (d + 1)⟩).data =
        f.data.take d ++ '.' :: f.data.drop (d + 1) := dotJoin_data _ _
    have hjoin := rfindDot_join f.data d hf
    show (⟨f.data⟩ : String) = _
    rw [show (dotJoin ⟨f.data.take d⟩ ⟨f.data.drop (d + 1)⟩) =
      (⟨f.data.take d ++ '.' :: f.data.drop (d + 1)⟩ : String) from congrArg String.mk this ▸ rfl]
    exact congrArg String.mk hjoin

/-- Membership in the catalog expansion. -/
theorem mem_get_db_set : ∀ (db : Db) (f : String),
    f ∈ get_db_set db ↔ ∃ p ∈ db, ∃ x ∈ p.2.exts, f = dotJoin p.1 x := by
  intro db
  induction db with
  | nil => intro f; simp [get_db_set]
  | cons p rest ih =>
    intro f
    simp only [get_db_set, List.mem_append, List.mem_map, ih, List.mem_cons]
    constructor
    · rintro (⟨x, hx, he⟩ | ⟨q, hq, x, hx, he⟩)
      · exact ⟨p, Or.inl rfl, x, hx, he.symm⟩
      · exact ⟨q, Or.inr hq, x, hx, he⟩
    · rintro ⟨q, hq | hq, x, hx, he⟩
      · subst hq; exact Or.inl ⟨x, hx, he.symm⟩
      · exact Or.inr ⟨q, hq, x, hx, he⟩

/-- Membership in the new-image difference. -/
theorem mem_new_images_list (db : Db) (images : List String) (f : String) :
    f ∈ new_images_list db images ↔ f ∈ images ∧ ¬ f ∈ get_db_set db := by
  unfold new_images_list
  rw [List.mem_filter]
  simp

/-- With an empty hash dict the duplicate loop threads its accumulators
through unchanged: the source never inserts into `hashes`. -/
theorem check_dup_go_nil_hashes (db_images : List String) (contents : String → String)
    (dup : Bool) (rep : List (String × String × Bool × Bool)) :
    ∀ images : List String, check_dup_go db_images contents [] dup rep images = (dup, rep) := by
  intro images
  induction images with
  | nil => rfl
  | cons i rest ih => simpa [check_dup_go, alookup] using ih

/-- A positive `startswith` test on a key whose index `len(name)` is out
of range forces the key to equal the base name. -/
theorem isPre_get?_none_eq (name key : String)
    (hp : isPre name.data key.data = true)
    (hg : key.data[name.length]? = none) : key = name := by
  have htake := (isPre_iff name.data key.data).mp hp
  have hlen : key.data.length ≤ name.data.length := by
    by_contra hc
    push_neg at hc
    have h2 : key.data[name.length]? = some key.data[name.length] :=
      List.getElem?_eq_getElem (show (String.length name : Nat) < key.data.length from hc)
    rw [hg] at h2
    cases h2
  have : key.data = name.data := by
    rw [← htake]
    exact (List.take_of_length_le hlen).symm
  exact congrArg String.mk this

/-- Case analysis of the defaults-lookup loop: a returned entry is bound
to a matching key, an empty result means no key matches, and an
`IndexError` means some key equals the base name exactly. -/
theorem get_defaults_go_cases (name : String) : ∀ db : Db,
    (∀ e, get_defaults_go name db = .ok (some e) →
      ∃ key, (key, e) ∈ db ∧ key_matches name key = true) ∧
    (get_defaults_go name db = .ok none → ∀ p ∈ db, key_matches name p.1 = false) ∧
    (get_defaults_go name db = .error () → ∃ p ∈ db, p.1 = name) := by
  intro db
  induction db with
  | nil => refine ⟨?_, ?_, ?_⟩ <;> simp [get_defaults_go]
  | cons p rest ih =>
    obtain ⟨key, v⟩ := p
    obtain ⟨ih1, ih2, ih3⟩ := ih
    by_cases hp : isPre name.data key.data = true
    · cases hg : key.data[name.length]? with
      | none =>
        have hgo : get_defaults_go name ((key, v) :: rest) = .error () := by
          simp [get_defaults_go, hp, hg]
        refine ⟨?_, ?_, ?_⟩
        · intro e h; rw [hgo] at h; exact absurd h (by simp)
        · intro h; rw [hgo] at h; exact absurd h (by simp)
        · intro _; exact ⟨(key, v), List.mem_cons_self _ _, isPre_get?_none_eq name key hp hg⟩
      | some c =>
        by_cases hc : c = '.'
        · subst hc
          have hgo : get_defaults_go name ((key, v) :: rest) = .ok (some v) := by
            simp [get_defaults_go, hp, hg]
          refine ⟨?_, ?_, ?_⟩
          · intro e h
            rw [hgo] at h
            have he : v = e := by simpa using h
            subst he
            exact ⟨key, List.mem_cons_self _ _, by simp [key_matches, hp, hg]⟩
          · intro h; rw [hgo] at h; exact absurd h (by simp)
          · intro h; rw [hgo] at h; exact absurd h (by simp)
        · have hgo : get_defaults_go name ((key, v) :: rest) = get_defaults_go name rest := by
            simp [get_defaults_go, hp, hg, hc]
          have hkm : key_matches name key = false := by
            simp [key_matches, hp, hg, hc]
          refine ⟨?_, ?_, ?_⟩
          · intro e h
            obtain ⟨k, hk, hm⟩ := ih1 e (hgo ▸ h)
            exact ⟨k, List.mem_cons_of_mem _ hk, hm⟩
          · intro h q hq
            rcases List.mem_cons.mp hq with hq | hq
            · subst hq; exact hkm
            · exact ih2 (hgo ▸ h) q hq
          · intro h
            obtain ⟨q, hq, he⟩ := ih3 (hgo ▸ h)
            exact ⟨q, List.mem_cons_of_mem _ hq, he⟩
    · have hp' : isPre name.data key.data = false := by
        cases hb : isPre name.data key.data
        · rfl
        · exact absurd hb hp
      have hgo : get_defaults_go name ((key, v) :: rest) = get_defaults_go name rest := by
        simp [get_defaults_go, hp']
      have hkm : key_matches name key = false := by
        simp [key_matches, hp']
      refine ⟨?_, ?_, ?_⟩
      · intro e h
        obtain ⟨k, hk, hm⟩ := ih1 e (hgo ▸ h)
        exact ⟨k, List.mem_cons_of_mem _ hk, hm⟩
      · intro h q hq
        rcases List.mem_cons.mp hq with hq | hq
        · subst hq; exact hkm
        · exact ih2 (hgo ▸ h) q hq
      · intro h
        obtain ⟨q, hq, he⟩ := ih3 (hgo ▸ h)
        exact ⟨q, List.mem_cons_of_mem _ hq, he⟩

/-! ### Claim theorems -/

/-- C1 (code bug): `check_duplicate_images` never records a hash in the
`hashes` dict, so the membership test `file_hash in hashes` is always
false: for every catalog expansion, file contents and on-disk image
list — including ones holding byte-identical files — it reports no pair
and returns a false duplicate flag, where the claim requires the pair
`(a, b)` of byte-identical files to be flagged and the flag to be true. -/
theorem check_duplicate_images_always_false (db_images : List String)
    (contents : String → String) (images : List String) :
    check_duplicate_images db_images contents images = (false, []) :=
  check_dup_go_nil_hashes db_images contents false [] images

/-- C2 counterexample: the lookup returns the `"foo.svg"` entry
for image `foo.png` even though that key fails the claim's test (being
no strict leading part of `"foo"` followed by a separator), refuting
the claim's direction of the match. -/
theorem get_defaults_entry_direction_counterexample :
    get_defaults_entry [("foo.svg", { exts := ["png"], tags := "t" })] "foo.png" =
      .ok (some { exts := ["png"], tags := "t" }) ∧
    claim_defaults_matches (splitext "foo.png").1 "foo.svg" = false := ⟨rfl, rfl⟩

/-- C2 (amended): the match direction is reversed with respect to the
claim: `get_defaults_entry` returns the fields of some existing entry
whose base name *extends* the new image's base name — the new base name
starts the entry key and the key continues with the extension
separator — returns all-empty defaults when no key matches, and raises
`IndexError` exactly when it meets a key equal to the base name. -/
theorem get_defaults_entry_characterization (db : Db) (image : String) :
    (∀ e, get_defaults_entry db image = .ok (some e) →
      ∃ key, (key, e) ∈ db ∧ key_matches (splitext image).1 key = true) ∧
    (get_defaults_entry db image = .ok none →
      ∀ p ∈ db, key_matches (splitext image).1 p.1 = false) ∧
    (get_defaults_entry db image = .error () →
      ∃ p ∈ db, p.1 = (splitext image).1) :=
  get_defaults_go_cases (splitext image).1 db

/-- Witness for C2 (amended) at a concrete store: applying the theorem
to `{"img.svg": e}` and image `img.png` produces the matching key. -/
theorem get_defaults_entry_characterization_witness :
    ∃ key, (key, ({ exts := ["png"], tags := "t" } : Entry)) ∈
        [("img.svg", ({ exts := ["png"], tags := "t" } : Entry))] ∧
      key_matches (splitext "img.png").1 key = true :=
  (get_defaults_entry_characterization [("img.svg", { exts := ["png"], tags := "t" })]
    "img.png").1 { exts := ["png"], tags := "t" } rfl

/-- C3 (code bug): `get_value` validates the raw line and strips it only
afterwards, so the whitespace-only tags line `" "` passes
`is_valid_tags` and is stored stripped to `""`: classifying `x.png`
with operator lines `" ", "", "", "", "", ""` inserts an entry whose
tags value is the empty string, which the claim rules out. -/
theorem add_image_inserts_empty_tags :
    add_image [] "x.png" [" ", "", "", "", "", ""] =
      .ok (1, [("x", { exts := ["png"], tags := "" })], []) ∧
    is_valid_tags " " = true := ⟨rfl, rfl⟩

/-- C7: with catalog entry `photo ↦ {exts: ["jpg"], tags: "x"}` and new
file `photo.png`, the default (empty) answer appends the extension and
returns 1, while answering `n` leaves the catalog unchanged and
returns 0. -/
theorem add_image_extension_merge :
    add_image [("photo", { exts := ["jpg"], tags := "x" })] "photo.png" [""] =
      .ok (1, [("photo", { exts := ["jpg", "png"], tags := "x" })], []) ∧
    add_image [("photo", { exts := ["jpg"], tags := "x" })] "photo.png" ["n"] =
      .ok (0, [("photo", { exts := ["jpg"], tags := "x" })], []) := ⟨rfl, rfl⟩

/-- C10 (code bug): when the store holds a key equal to
`os.path.splitext(image)[0]` — reachable for the dot-file `".hidden"`,
whose caller-side split gives base `""` (absent from the store) while
`splitext` keeps `".hidden"` — the test `key[len(name)]` raises
`IndexError`, and `add_image` propagates it, so the lookup is not
total as the claim asserts. -/
theorem get_defaults_entry_index_error :
    get_defaults_entry [(".hidden", { exts := ["png"], tags := "t" })] ".hidden" =
      .error () ∧
    add_image [(".hidden", { exts := ["png"], tags := "t" })] ".hidden" [] =
      .indexError := ⟨rfl, rfl⟩

/-- C4 counterexample: a run over a fully catalogued image set returns
at the zero-new-images check and never writes `data.json`, refuting the
claim that the catalog is written back at the end of each run
regardless of whether any mutation occurred. -/
theorem run_without_new_images_writes_nothing :
    main_run [("a", { exts := ["png"], tags := "t" })] ["a.png"] (fun _ => "") [] =
      .ok ⟨none, 0, [], [("a", { exts := ["png"], tags := "t" })]⟩ := rfl

/-- C4 (amended): when no new files are present the run aborts before
persistence, writing nothing and leaving the catalog untouched; hence
two successive such runs leave the on-disk bytes unchanged (and
trivially identical), rather than rewriting the normalized JSON. -/
theorem main_run_no_new_images_no_write (db : Db) (images : List String)
    (contents : String → String) (inputs : List String)
    (h : new_images_list db images = []) :
    main_run db images contents inputs = .ok ⟨none, 0, [], db⟩ := by
  simp [main_run, check_duplicate_images, check_dup_go_nil_hashes, h]

/-- Witness for C4 (amended) at a concrete catalogued state. -/
theorem main_run_no_new_images_no_write_witness :
    main_run [("b", { exts := ["jpg"], tags := "t" })] ["b.jpg"] (fun _ => "c") ["x"] =
      .ok ⟨none, 0, [], [("b", { exts := ["jpg"], tags := "t" })]⟩ :=
  main_run_no_new_images_no_write _ _ _ _ (by decide)

/-- C9 counterexample: two runs over the same catalog, the same on-disk
image set (a permutation, i.e. equal as sets) and identical operator
input hand the images to the classifier in different orders: no
deterministic processing order is imposed before iteration. -/
theorem classification_order_depends_on_enumeration :
    ∃ r1 r2 : MainResult,
      main_run [] ["a", "b"] (fun _ => "") [""] = .ok r1 ∧
      main_run [] ["b", "a"] (fun _ => "") [""] = .ok r2 ∧
      (["a", "b"] : List String).Perm ["b", "a"] ∧ r1.classified ≠ r2.classified :=
  ⟨⟨some [], 0, ["a", "b"], []⟩, ⟨some [], 0, ["b", "a"], []⟩, rfl, rfl,
    List.Perm.swap _ _ _, by decide⟩

/-- Because the duplicate flag is never raised, `main_run` reduces to
the zero-check, the start question and the classification fold. -/
theorem main_run_eq (db : Db) (images : List String) (contents : String → String)
    (inputs : List String) :
    main_run db images contents inputs =
      (if (new_images_list db images).length = 0 then .ok ⟨none, 0, [], db⟩
       else
        match inputs with
        | [] => .noInput
        | answer :: rest =>
          if answer = "n" then .ok ⟨none, 0, [], db⟩
          else
            match run_images db 0 [] rest (new_images_list db images) with
            | .ok (count, db', cls) => .ok ⟨some db', count, cls, db'⟩
            | .indexError => .indexError
            | .noInput => .noInput) := by
  simp [main_run, check_duplicate_images, check_dup_go_nil_hashes]

/-- The classification fold records exactly the images it walks, in
order, after the accumulator it started from. -/
theorem run_images_classified : ∀ (imgs : List String) (db : Db) (count : Nat)
    (cls inputs : List String) (out : Nat × Db × List String),
    run_images db count cls inputs imgs = .ok out → out.2.2 = cls ++ imgs := by
  intro imgs
  induction imgs with
  | nil =>
    intro db count cls inputs out h
    have h' : Outcome.ok (count, db, cls) = Outcome.ok out := h
    have : (count, db, cls) = out := by injection h'
    rw [← this]
    simp
  | cons f rest ih =>
    intro db count cls inputs out h
    unfold run_images at h
    cases ha : add_image db f inputs with
    | ok t =>
      obtain ⟨n, db', inputs'⟩ := t
      rw [ha] at h
      have := ih db' (count + n) (cls ++ [f]) inputs' out h
      simpa [List.append_assoc] using this
    | indexError => rw [ha] at h; cases h
    | noInput => rw [ha] at h; cases h

/-- C5 counterexample: with catalog entry `a ↦ {exts: ["b.c"]}` — an
extension containing a separator — the expansion contains `a.b.c`, so
the on-disk file `a.b.c` is excluded from the new-image set, yet its
split pair `("a.b", "c")` is represented by no entry: the set
difference and the pair-level description of the claim disagree. -/
theorem new_images_pair_level_counterexample :
    ¬ (∀ f ∈ ["a.b.c"],
        (f ∈ new_images_list [("a", { exts := ["b.c"], tags := "t" })] ["a.b.c"] ↔
          pair_represented [("a", { exts := ["b.c"], tags := "t" })] f = false)) := by
  decide

/-- C5 (amended): provided every extension listed in the catalog is
non-empty and separator-free — the well-formedness the data model
intends — the new-image set contains exactly the on-disk filenames
whose (base name, extension) pair is represented by no catalog entry. -/
theorem mem_new_images_iff_pair (db : Db) (images : List String) (f : String)
    (hx : ∀ p ∈ db, ∀ x ∈ p.2.exts, x ≠ "" ∧ '.' ∉ x.data) :
    f ∈ new_images_list db images ↔ (f ∈ images ∧ pair_represented db f = false) := by
  have key : f ∈ get_db_set db ↔ pair_represented db f = true := by
    constructor
    · intro h
      obtain ⟨p, hp, x, hxe, he⟩ := (mem_get_db_set db f).mp h
      obtain ⟨hne, hnd⟩ := hx p hp x hxe
      have hsplit : split_ext f = (p.1, x) := by rw [he]; exact split_ext_append p.1 x hnd
      unfold pair_represented
      rw [List.any_eq_true]
      refine ⟨p, hp, ?_⟩
      rw [decide_eq_true_iff]
      exact ⟨by rw [hsplit], by rw [hsplit]; exact hxe⟩
    · intro h
      unfold pair_represented at h
      rw [List.any_eq_true] at h
      obtain ⟨p, hp, hd⟩ := h
      rw [decide_eq_true_iff] at hd
      obtain ⟨hfst, hsnd⟩ := hd
      have hne : (split_ext f).2 ≠ "" := (hx p hp _ hsnd).1
      have hj := split_ext_join f hne
      refine (mem_get_db_set db f).mpr ⟨p, hp, (split_ext f).2, hsnd, ?_⟩
      rw [← hfst] at hj
      exact hj
  rw [mem_new_images_list]
  constructor
  · rintro ⟨hm, hnm⟩
    refine ⟨hm, ?_⟩
    cases hb : pair_represented db f
    · rfl
    · exact absurd (key.mpr hb) hnm
  · rintro ⟨hm, hnr⟩
    refine ⟨hm, fun hmem => ?_⟩
    rw [key.mp hmem] at hnr
    cases hnr

/-- Witness for C5 (amended) at a concrete well-formed catalog. -/
theorem mem_new_images_iff_pair_witness :
    "b.jpg" ∈ new_images_list [("a", { exts := ["png"], tags := "t" })] ["a.png", "b.jpg"] ↔
      ("b.jpg" ∈ ["a.png", "b.jpg"] ∧
        pair_represented [("a", { exts := ["png"], tags := "t" })] "b.jpg" = false) :=
  mem_new_images_iff_pair [("a", { exts := ["png"], tags := "t" })] ["a.png", "b.jpg"]
    "b.jpg" (by decide)

/-- C9 (amended): no deterministic order is imposed before iteration:
whenever a run reaches the write at the end, the images were handed to
the classifier exactly in the enumeration order of the on-disk set
filtered to the new ones — the order the arbitrary set iteration
provides, not a sorted one. -/
theorem classified_follows_enumeration (db : Db) (images : List String)
    (contents : String → String) (inputs : List String) (r : MainResult)
    (h : main_run db images contents inputs = .ok r) (hw : r.wrote.isSome = true) :
    r.classified = new_images_list db images := by
  rw [main_run_eq] at h
  by_cases hlen : (new_images_list db images).length = 0
  · rw [if_pos hlen] at h
    have : (⟨none, 0, [], db⟩ : MainResult) = r := by injection h
    rw [← this] at hw
    cases hw
  · rw [if_neg hlen] at h
    cases inputs with
    | nil => cases h
    | cons answer rest =>
      have h2 : (if answer = "n" then Outcome.ok (⟨none, 0, [], db⟩ : MainResult)
          else
            match run_images db 0 [] rest (new_images_list db images) with
            | .ok (count, db', cls) => .ok ⟨some db', count, cls, db'⟩
            | .indexError => .indexError
            | .noInput => .noInput) = .ok r := h
      by_cases hans : answer = "n"
      · rw [if_pos hans] at h2
        have : (⟨none, 0, [], db⟩ : MainResult) = r := by injection h2
        rw [← this] at hw
        cases hw
      · rw [if_neg hans] at h2
        cases hri : run_images db 0 [] rest (new_images_list db images) with
        | ok t =>
          obtain ⟨count, db', cls⟩ := t
          rw [hri] at h2
          have hr : (⟨some db', count, cls, db'⟩ : MainResult) = r := by injection h2
          have hcls := run_images_classified (new_images_list db images) db 0 [] rest
            (count, db', cls) hri
          rw [← hr]
          simpa using hcls
        | indexError => rw [hri] at h2; cases h2
        | noInput => rw [hri] at h2; cases h2

/-- Witness for C9 (amended) at a concrete run over extensionless
files. -/
theorem classified_follows_enumeration_witness :
    (⟨some [], 0, ["d", "c"], []⟩ : MainResult).classified = new_images_list [] ["d", "c"] :=
  classified_follows_enumeration [] ["d", "c"] (fun _ => "") ["x"]
    ⟨some [], 0, ["d", "c"], []⟩ rfl rfl

/-- C6 (code bug): with two byte-identical files `a.png` and `b.png` on
disk, the run does not abort: the duplicate flag stays false (the
hashes are never recorded), both files are handed to interactive
classification, and `data.json` is rewritten — where the claim requires
the flag to gate classification and persistence for such inputs. -/
theorem main_proceeds_despite_identical_files :
    (fun f => if f = "z.png" then "Z" else "X") "a.png" =
      (fun f => if f = "z.png" then "Z" else "X") "b.png" ∧
    main_run [("z", { exts := ["png"], tags := "t" })] ["a.png", "b.png", "z.png"]
      (fun f => if f = "z.png" then "Z" else "X")
      ["", "ta", "", "", "", "", "", "tb", "", "", "", "", ""] =
      .ok ⟨some [("z", { exts := ["png"], tags := "t" }),
            ("a", { exts := ["png"], tags := "ta" }),
            ("b", { exts := ["png"], tags := "tb" })], 2, ["a.png", "b.png"],
           [("z", { exts := ["png"], tags := "t" }),
            ("a", { exts := ["png"], tags := "ta" }),
            ("b", { exts := ["png"], tags := "tb" })]⟩ := ⟨rfl, rfl⟩

/-- The new images of a run are disjoint from the expansion of the
catalog they were computed against. -/
theorem noHit_initial (db : Db) (images : List String) :
    NoHit db (new_images_list db images) := by
  intro f hf p hp x hx he
  have hmem : f ∈ get_db_set db := (mem_get_db_set db f).mpr ⟨p, hp, x, hx, he⟩
  exact ((mem_new_images_list db images f).mp hf).2 hmem

/-- Single classification step: if the catalog's extension lists are
duplicate-free and neither the classified file nor the remaining ones
are produced by the catalog expansion, both properties survive the
step.  The appended extension cannot already be listed, since the file
would then be in the expansion. -/
theorem add_image_step (db : Db) (f : String) (inputs : List String) (fs : List String)
    (n : Nat) (db' : Db) (inputs' : List String)
    (hok : add_image db f inputs = .ok (n, db', inputs'))
    (h1 : ExtsOk db) (h2 : (f :: fs).Nodup) (h3 : NoHit db (f :: fs)) :
    ExtsOk db' ∧ NoHit db' fs := by
  have hfnotfs : f ∉ fs := (List.nodup_cons.mp h2).1
  have h3f : ∀ p ∈ db, ∀ x ∈ p.2.exts, f ≠ dotJoin p.1 x :=
    fun p hp x hx => h3 f (List.mem_cons_self _ _) p hp x hx
  have h3fs : NoHit db fs := fun g hg => h3 g (List.mem_cons_of_mem _ hg)
  by_cases hext : (split_ext f).2.length = 0
  · have he : add_image db f inputs = .ok (0, db, inputs) := by
      simp [add_image, hext]
    rw [he] at hok
    simp only [Outcome.ok.injEq, Prod.mk.injEq] at hok
    obtain ⟨-, hdb, -⟩ := hok
    subst hdb
    exact ⟨h1, h3fs⟩
  · have hfne : (split_ext f).2 ≠ "" := ne_empty_of_length_ne_zero hext
    have hjoin : f = dotJoin (split_ext f).1 (split_ext f).2 := split_ext_join f hfne
    cases hlook : alookup db (split_ext f).1 with
    | some obj =>
      have hobjmem : ((split_ext f).1, obj) ∈ db := alookup_mem db _ obj hlook
      cases hgv : get_value isYn inputs with
      | none =>
        have he : add_image db f inputs = .noInput := by
          simp [add_image, hext, hlook, hgv]
        rw [he] at hok
        cases hok
      | some pr =>
        obtain ⟨answer, rest⟩ := pr
        by_cases hans : answer = "" ∨ answer = "Y"
        · have he : add_image db f inputs =
              .ok (1, dbSet db (split_ext f).1
                { obj with exts := obj.exts ++ [(split_ext f).2] }, rest) := by
            simp [add_image, hext, hlook, hgv, hans]
          rw [he] at hok
          simp only [Outcome.ok.injEq, Prod.mk.injEq] at hok
          obtain ⟨-, hdb, -⟩ := hok
          subst hdb
          constructor
          · intro q hq
            rcases mem_dbSet db _ _ q hq with hq' | ⟨hq', _⟩
            · subst hq'
              show (obj.exts ++ [(split_ext f).2]).Nodup
              have hnodup : obj.exts.Nodup := h1 _ hobjmem
              have hnot : (split_ext f).2 ∉ obj.exts :=
                fun hmem => h3f _ hobjmem _ hmem hjoin
              simp [List.nodup_append, hnodup, hnot]
            · exact h1 q hq'
          · intro g hg q hq x hx
            rcases mem_dbSet db _ _ q hq with hq' | ⟨hq', _⟩
            · subst hq'
              rcases List.mem_append.mp hx with hx' | hx'
              · exact h3fs g hg _ hobjmem x hx'
              · have hxe : x = (split_ext f).2 := by simpa using hx'
                subst hxe
                show g ≠ dotJoin (split_ext f).1 (split_ext f).2
                rw [← hjoin]
                exact fun he' => hfnotfs (he' ▸ hg)
            · exact h3fs g hg q hq' x hx
        · have he : add_image db f inputs = .ok (0, db, rest) := by
            simp [add_image, hext, hlook, hgv, hans]
          rw [he] at hok
          simp only [Outcome.ok.injEq, Prod.mk.injEq] at hok
          obtain ⟨-, hdb, -⟩ := hok
          subst hdb
          exact ⟨h1, h3fs⟩
    | none =>
      cases hdef : get_defaults_entry db f with
      | error e =>
        have he : add_image db f inputs = .indexError := by
          simp [add_image, hext, hlook, hdef]
        rw [he] at hok
        cases hok
      | ok d =>
        cases hcl : classify_loop (inputs.length + 1) inputs with
        | none =>
          have he : add_image db f inputs = .noInput := by
            simp [add_image, hext, hlook, hdef, hcl]
          rw [he] at hok
          cases hok
        | some pr =>
          obtain ⟨⟨tags, title, author, license, language⟩, rest⟩ := pr
          have he : add_image db f inputs =
              .ok (1, db ++ [((split_ext f).1,
                mkEntry (split_ext f).2 tags title author license language)], rest) := by
            simp [add_image, hext, hlook, hdef, hcl]
          rw [he] at hok
          simp only [Outcome.ok.injEq, Prod.mk.injEq] at hok
          obtain ⟨-, hdb, -⟩ := hok
          subst hdb
          constructor
          · intro q hq
            rcases List.mem_append.mp hq with hq' | hq'
            · exact h1 q hq'
            · have hq2 : q = ((split_ext f).1,
                  mkEntry (split_ext f).2 tags title author license language) := by
                simpa using hq'
              subst hq2
              show ([(split_ext f).2] : List String).Nodup
              simp
          · intro g hg q hq x hx
            rcases List.mem_append.mp hq with hq' | hq'
            · exact h3fs g hg q hq' x hx
            · have hq2 : q = ((split_ext f).1,
                  mkEntry (split_ext f).2 tags title author license language) := by
                simpa using hq'
              subst hq2
              have hxe : x = (split_ext f).2 := by simpa [mkEntry] using hx
              subst hxe
              show g ≠ dotJoin (split_ext f).1 (split_ext f).2
              rw [← hjoin]
              exact fun he' => hfnotfs (he' ▸ hg)

/-- The classification fold preserves duplicate-freeness of every
extension list, given that the processed filenames avoid the current
expansion and repeat no name. -/
theorem run_images_exts_ok : ∀ (imgs : List String) (db : Db) (count : Nat)
    (cls inputs : List String) (out : Nat × Db × List String),
    run_images db count cls inputs imgs = .ok out →
    ExtsOk db → imgs.Nodup → NoHit db imgs → ExtsOk out.2.1 := by
  intro imgs
  induction imgs with
  | nil =>
    intro db count cls inputs out h hok _ _
    have h' : Outcome.ok (count, db, cls) = Outcome.ok out := h
    have he : (count, db, cls) = out := by injection h'
    rw [← he]
    exact hok
  | cons f rest ih =>
    intro db count cls inputs out h hok hnd hnh
    unfold run_images at h
    cases ha : add_image db f inputs with
    | ok t =>
      obtain ⟨n, db', inputs'⟩ := t
      rw [ha] at h
      have step := add_image_step db f inputs rest n db' inputs' ha hok hnd hnh
      exact ih db' (count + n) (cls ++ [f]) inputs' out h step.1 (List.Nodup.of_cons hnd) step.2
    | indexError => rw [ha] at h; cases h
    | noInput => rw [ha] at h; cases h

/-- C8: if the on-disk names repeat no filename and, at load time, no
extension appears twice within any single entry's list, then after a
complete run — which classifies only filenames outside the catalog
expansion, appends extensions to existing entries and creates new
entries with a singleton list — still no extension appears twice within
any entry's list. -/
theorem run_preserves_exts_nodup (db : Db) (images : List String)
    (contents : String → String) (inputs : List String) (r : MainResult)
    (h1 : images.Nodup) (h2 : ∀ p ∈ db, p.2.exts.Nodup)
    (hrun : main_run db images contents inputs = .ok r) :
    ∀ p ∈ r.finalDb, p.2.exts.Nodup := by
  rw [main_run_eq] at hrun
  by_cases hlen : (new_images_list db images).length = 0
  · rw [if_pos hlen] at hrun
    have hr : (⟨none, 0, [], db⟩ : MainResult) = r := by injection hrun
    rw [← hr]
    exact h2
  · rw [if_neg hlen] at hrun
    cases inputs with
    | nil => cases hrun
    | cons answer rest =>
      have hrun2 : (if answer = "n" then Outcome.ok (⟨none, 0, [], db⟩ : MainResult)
          else
            match run_images db 0 [] rest (new_images_list db images) with
            | .ok (count, db', cls) => .ok ⟨some db', count, cls, db'⟩
            | .indexError => .indexError
            | .noInput => .noInput) = .ok r := hrun
      by_cases hans : answer = "n"
      · rw [if_pos hans] at hrun2
        have hr : (⟨none, 0, [], db⟩ : MainResult) = r := by injection hrun2
        rw [← hr]
        exact h2
      · rw [if_neg hans] at hrun2
        cases hri : run_images db 0 [] rest (new_images_list db images) with
        | ok t =>
          obtain ⟨count, db', cls⟩ := t
          rw [hri] at hrun2
          have hr : (⟨some db', count, cls, db'⟩ : MainResult) = r := by injection hrun2
          rw [← hr]
          exact run_images_exts_ok (new_images_list db images) db 0 [] rest
            (count, db', cls) hri h2 (h1.filter _) (noHit_initial db images)
        | indexError => rw [hri] at hrun2; cases hrun2
        | noInput => rw [hri] at hrun2; cases hrun2

/-- Witness for C8 at a concrete run creating one new entry. -/
theorem run_preserves_exts_nodup_witness :
    (("a", ({ exts := ["png"], tags := "t" } : Entry))).2.exts.Nodup :=
  run_preserves_exts_nodup [] ["a.png"] (fun _ => "q") ["", "t", "", "", "", "", ""]
    ⟨some [("a", { exts := ["png"], tags := "t" })], 1, ["a.png"],
      [("a", { exts := ["png"], tags := "t" })]⟩
    (by decide) (by decide) rfl ("a", { exts := ["png"], tags := "t" })
    (List.mem_singleton.mpr rfl)

end StickerUpdate
